import Mathlib

/-!
Verification of the air2neo ingest core (src/air2neo/main.py, src/air2neo/config.py).

Python values that can appear as Airtable cell values or dictionary keys are
modelled by the inductive type PyVal.  Dictionaries are association lists in
insertion order with the usual Python semantics (later assignment to an
existing key updates in place, a fresh key is appended).  The store client
functions (batch_create_node, batch_create_edge, create_constraint_for) live
in neo4j_functions.py which is not part of the sources; their merge semantics
are modelled from the specification where indicated.
-/

namespace Air2Neo

inductive PyVal where
  | str (s : String)
  | int (n : Int)
  | list (xs : List PyVal)
  | none

mutual

def PyVal.decEq : (a b : PyVal) → Decidable (a = b)
  | .str a, .str b =>
    if h : a = b then isTrue (by rw [h]) else isFalse (fun hh => h (by injection hh))
  | .int a, .int b =>
    if h : a = b then isTrue (by rw [h]) else isFalse (fun hh => h (by injection hh))
  | .none, .none => isTrue rfl
  | .list xs, .list ys =>
    match PyVal.decEqList xs ys with
    | isTrue h => isTrue (by rw [h])
    | isFalse h => isFalse (fun hh => h (by injection hh))
  | .str _, .int _ => isFalse (fun h => PyVal.noConfusion h)
  | .str _, .list _ => isFalse (fun h => PyVal.noConfusion h)
  | .str _, .none => isFalse (fun h => PyVal.noConfusion h)
  | .int _, .str _ => isFalse (fun h => PyVal.noConfusion h)
  | .int _, .list _ => isFalse (fun h => PyVal.noConfusion h)
  | .int _, .none => isFalse (fun h => PyVal.noConfusion h)
  | .list _, .str _ => isFalse (fun h => PyVal.noConfusion h)
  | .list _, .int _ => isFalse (fun h => PyVal.noConfusion h)
  | .list _, .none => isFalse (fun h => PyVal.noConfusion h)
  | .none, .str _ => isFalse (fun h => PyVal.noConfusion h)
  | .none, .int _ => isFalse (fun h => PyVal.noConfusion h)
  | .none, .list _ => isFalse (fun h => PyVal.noConfusion h)

def PyVal.decEqList : (xs ys : List PyVal) → Decidable (xs = ys)
  | [], [] => isTrue rfl
  | x :: xs, y :: ys =>
    match PyVal.decEq x y with
    | isFalse h1 => isFalse (fun hh => h1 (by injection hh))
    | isTrue h1 =>
      match PyVal.decEqList xs ys with
      | isTrue h2 => isTrue (by rw [h1, h2])
      | isFalse h2 => isFalse (fun hh => h2 (by injection hh))
  | [], _ :: _ => isFalse (fun h => List.noConfusion h)
  | _ :: _, [] => isFalse (fun h => List.noConfusion h)

end

instance : DecidableEq PyVal := PyVal.decEq

/-- Models Python str.startswith for the one-character sentinel used by the
code, on the string's character list. -/
def startsWithUnderscore (s : String) : Bool :=
  match s.data with
  | [] => false
  | c :: _ => c = '_'

/-- A character is cased when it is a lower- or upper-case letter (ASCII model
of the Unicode notion used by Python). -/
def isCasedChar (c : Char) : Bool := c.isLower || c.isUpper

/-- Models Python str.isupper: at least one cased character, and every cased
character is upper case. -/
def pyIsUpper (s : String) : Bool :=
  s.data.any isCasedChar && s.data.all (fun c => !isCasedChar c || c.isUpper)

/-- main.py keep_col_cond: non-strings are dropped, strings are kept unless
they start with the underscore sentinel. -/
def keep_col_cond : PyVal → Bool
  | .str s => !startsWithUnderscore s
  | _ => false

/-- main.py edge_col_cond: non-strings are not edge columns, strings are edge
columns exactly when str.isupper holds. -/
def edge_col_cond : PyVal → Bool
  | .str s => pyIsUpper s
  | _ => false

/-- main.py prop_col_cond: non-strings are not property columns, strings are
property columns exactly when edge_col_cond fails on them. -/
def prop_col_cond : PyVal → Bool
  | .str s => !pyIsUpper s
  | _ => false

inductive ColumnKind where
  | ignored
  | edge
  | property
deriving DecidableEq

/-- The composite classification realised by _split_node_edge: a column is
dropped unless keep_col_cond holds, a kept column is an edge column when
edge_col_cond holds and a property column otherwise (prop_col_cond equals the
negation of edge_col_cond on strings). -/
def classify (k : PyVal) : ColumnKind :=
  if keep_col_cond k then
    (if edge_col_cond k then ColumnKind.edge else ColumnKind.property)
  else ColumnKind.ignored

/-- The classification rule exactly as claim C5 words it: non-strings are
Ignored, then a name starting with the underscore sentinel is Ignored, then a
name in which every character is an upper-case letter is Edge, and every other
name is Property. -/
def classifySpecC5 : PyVal → ColumnKind
  | .str s =>
    if startsWithUnderscore s then ColumnKind.ignored
    else if s.data.all Char.isUpper then ColumnKind.edge
    else ColumnKind.property
  | _ => ColumnKind.ignored

/-- The amended classification rule: as claim C5, except that the Edge test is
Python str.isupper — the name contains at least one cased character and every
cased character in it is upper case (an underscore or digit does not
disqualify a name, and a name with no cased character is never Edge). -/
def classifySpecC5Amended : PyVal → ColumnKind
  | .str s =>
    if startsWithUnderscore s then ColumnKind.ignored
    else if s.data.any isCasedChar && s.data.all (fun c => !isCasedChar c || c.isUpper) then
      ColumnKind.edge
    else ColumnKind.property
  | _ => ColumnKind.ignored

/-- Embedding of main.py format_edge_col, which is col.split('__')[0] in
Python: pySplitDunder is Python str.split for the two-character separator,
on character lists. -/
def pySplitDunder : List Char → List (List Char)
  | [] => [[]]
  | [c] => [[c]]
  | c :: c2 :: rest =>
    if c = '_' ∧ c2 = '_' then
      [] :: pySplitDunder rest
    else
      match pySplitDunder (c2 :: rest) with
      | [] => [[c]]
      | piece :: pieces => (c :: piece) :: pieces

/-- main.py format_edge_col: the first piece of the Python split on the
double-underscore separator. -/
def format_edge_col (col : String) : String :=
  String.mk ((pySplitDunder col.data).headD [])

/-- Spec-side reading of edge-label derivation: the characters strictly before
the first occurrence of the two-character separator, the whole name when the
separator does not occur. -/
def takeBeforeDunder : List Char → List Char
  | [] => []
  | [c] => [c]
  | c :: c2 :: rest =>
    if c = '_' ∧ c2 = '_' then []
    else c :: takeBeforeDunder (c2 :: rest)

/-- Python dict assignment d[k] = v: an existing key is updated in place, a
fresh key is appended at the end. -/
def dictInsert {α β : Type} [DecidableEq α] (d : List (α × β)) (k : α) (v : β) :
    List (α × β) :=
  if d.any (fun p => p.1 = k) then
    d.map (fun p => if p.1 = k then (k, v) else p)
  else d ++ [(k, v)]

/-- Python dict lookup d[k]: the value of the first pair whose key is k. -/
def dictLookup {α β : Type} [DecidableEq α] (d : List (α × β)) (k : α) : Option β :=
  match d with
  | [] => Option.none
  | p :: rest => if p.1 = k then Option.some p.2 else dictLookup rest k

/-- A Python dict built from a sequence of key/value pairs, as a dict
comprehension does: assignments performed left to right. -/
def dictOfPairs {α β : Type} [DecidableEq α] (ps : List (α × β)) : List (α × β) :=
  ps.foldl (fun d p => dictInsert d p.1 p.2) []

/-- One Airtable record as the DataFrame row holds it: the stable record id
(absent when the source row lacks one), the creation timestamp, and the fields
dict from column name to cell value. -/
structure RawRow where
  id : Option String
  createdTime : String
  fields : List (PyVal × PyVal)
deriving DecidableEq

/-- The row after _split_node_edge: fields replaced by the props dict and the
edges dict (keyed by formatted edge label); createdTime deleted when truthy. -/
structure NormRow where
  id : Option String
  props : List (PyVal × PyVal)
  edges : List (String × PyVal)
  createdTime : Option String
deriving DecidableEq

/-- The string payload of a PyVal; only applied to keys on which edge_col_cond
holds, which forces the string constructor. -/
def pyValStr : PyVal → String
  | .str s => s
  | _ => ""

/-- The fields kept by the first comprehension of _split_node_edge. -/
def keptFields (row : RawRow) : List (PyVal × PyVal) :=
  row.fields.filter (fun p => keep_col_cond p.1)

/-- Embedding of main.py _split_node_edge: filter the fields dict by
keep_col_cond, build the edges dict from the edge columns under their
formatted labels, build the props dict from the property columns, and delete
createdTime when it is truthy (a nonempty string). -/
def split_node_edge (row : RawRow) : NormRow :=
  { id := row.id
    props := dictOfPairs ((keptFields row).filter (fun p => prop_col_cond p.1))
    edges := dictOfPairs (((keptFields row).filter (fun p => edge_col_cond p.1)).map
      (fun p => (format_edge_col (pyValStr p.1), p.2)))
    createdTime := if row.createdTime.isEmpty then Option.some row.createdTime else Option.none }

/-- The source columns iterated by the edges comprehension of
_split_node_edge: the kept columns on which edge_col_cond holds. -/
def edgeSourceCols (row : RawRow) : List PyVal :=
  ((keptFields row).filter (fun p => edge_col_cond p.1)).map (fun p => p.1)

/-- config.py airtable_id_col. -/
def airtable_id_col : String := "_aid"

/-- The identifier key as it appears as a props-dict key. -/
def aidKey : PyVal := PyVal.str airtable_id_col

/-- The record id as a Python value: the string when present, None when the
row lacks one. -/
def idVal : Option String → PyVal
  | Option.some s => PyVal.str s
  | Option.none => PyVal.none

/-- Embedding of the make_node_list closure in the ingest job: the node map is
the row's props dict with the record id assigned under airtable_id_col. -/
def make_node_list (row : NormRow) : List (PyVal × PyVal) :=
  dictInsert row.props aidKey (idVal row.id)

/-- The node maps of one table, df.apply(make_node_list, axis=1).to_list(). -/
def nodeListOf (rows : List NormRow) : List (List (PyVal × PyVal)) :=
  rows.map make_node_list

/-- An edge row as built in the ingest job's edge loop:
edge[edge_source] = id, edge[edge_target] = v_, edge[edge_label] = k. -/
structure EdgeTuple where
  source : PyVal
  target : PyVal
  label : String
deriving DecidableEq

/-- The Python exceptions the embedded core can raise. -/
inductive PyErr where
  | typeError
deriving DecidableEq

/-- Python iteration over a cell value, as the loop for v_ in v performs it: a
list yields its elements, a string yields its characters as one-character
strings, and any other scalar raises TypeError. -/
def pyIter : PyVal → Except PyErr (List PyVal)
  | .list xs => Except.ok xs
  | .str s => Except.ok (s.data.map (fun c => PyVal.str (String.mk [c])))
  | _ => Except.error PyErr.typeError

/-- The edge rows contributed by one normalized row: for k, v in edges.items(),
for v_ in v, one edge dict per target. -/
def rowEdgeTuples (rowId : Option String) : List (String × PyVal) → Except PyErr (List EdgeTuple)
  | [] => Except.ok []
  | (k, v) :: rest =>
    match pyIter v with
    | Except.error e => Except.error e
    | Except.ok targets =>
      match rowEdgeTuples rowId rest with
      | Except.error e => Except.error e
      | Except.ok ts => Except.ok (targets.map (fun t => ⟨idVal rowId, t, k⟩) ++ ts)

/-- The edge_list built for one table by iterating its rows. -/
def edgeListOf : List NormRow → Except PyErr (List EdgeTuple)
  | [] => Except.ok []
  | r :: rest =>
    match rowEdgeTuples r.id r.edges with
    | Except.error e => Except.error e
    | Except.ok ts =>
      match edgeListOf rest with
      | Except.error e => Except.error e
      | Except.ok ts2 => Except.ok (ts ++ ts2)

/-- A node in the graph store: its label and its property map. -/
structure StoreNode where
  label : String
  props : List (PyVal × PyVal)
deriving DecidableEq

/-- The graph store's content: its nodes and its relationships. -/
structure Store where
  nodes : List StoreNode
  edges : List EdgeTuple
deriving DecidableEq

/-- The write operations the ingest job issues against the store, in order:
the nuke deletion, batch_create_node, create_constraint_for, and
batch_create_edge. -/
inductive StoreOp where
  | wipe
  | nodeMerge (label : String) (nodeList : List (List (PyVal × PyVal)))
  | constraintFor (label : String) (propName : String)
  | edgeMerge (edgeList : List EdgeTuple)
deriving DecidableEq

/-- The identifier property of a node map. -/
def nodeAid (props : List (PyVal × PyVal)) : Option PyVal :=
  dictLookup props aidKey

/-- Whether a store node has the given label and identifier property. -/
def nodeKeyEq (label : String) (aid : Option PyVal) (n : StoreNode) : Bool :=
  decide (n.label = label ∧ nodeAid n.props = aid)

/-- Modelled from the spec: batch_create_node lives in neo4j_functions.py,
which is absent from the sources; per the spec a node merge is keyed on the
identifier property under the table's label — an existing node with that key
is updated in place, otherwise a new node is appended (merge, not insert). -/
def mergeNode (ns : List StoreNode) (label : String) (props : List (PyVal × PyVal)) :
    List StoreNode :=
  if ns.any (nodeKeyEq label (nodeAid props)) then
    ns.map (fun n => if nodeKeyEq label (nodeAid props) n then ⟨label, props⟩ else n)
  else ns ++ [⟨label, props⟩]

/-- Whether the store holds a node with the given label and identifier. -/
def hasNodeKey (ns : List StoreNode) (label : String) (aid : Option PyVal) : Bool :=
  ns.any (nodeKeyEq label aid)

/-- Modelled from the spec: batch_create_edge lives in neo4j_functions.py,
which is absent from the sources; per the spec an edge merge creates the
relationship only when no relationship with the same source, target and label
exists (merge, not insert). -/
def mergeEdge (es : List EdgeTuple) (t : EdgeTuple) : List EdgeTuple :=
  if t ∈ es then es else es ++ [t]

/-- Modelled from the spec where the store client is concerned: the effect of
one write operation on the store.  The nuke query deletes everything, node and
edge batches merge each entry in order, and a constraint declaration does not
change the store content. -/
def applyOp (s : Store) : StoreOp → Store
  | StoreOp.wipe => ⟨[], []⟩
  | StoreOp.nodeMerge label nlist => ⟨nlist.foldl (fun ns p => mergeNode ns label p) s.nodes, s.edges⟩
  | StoreOp.constraintFor _ _ => s
  | StoreOp.edgeMerge ts => ⟨s.nodes, ts.foldl mergeEdge s.edges⟩

/-- Sequential execution of a batch of write operations. -/
def applyOps (s : Store) (ops : List StoreOp) : Store :=
  ops.foldl applyOp s

/-- The operations of the first per-table loop of the ingest job: for each
table, batch_create_node with its node list, then create_constraint_for on
airtable_id_col. -/
def nodeOps : List (String × List NormRow) → List StoreOp
  | [] => []
  | (t, rows) :: rest =>
    StoreOp.nodeMerge t (nodeListOf rows) :: StoreOp.constraintFor t airtable_id_col :: nodeOps rest

/-- The operations of the second per-table loop of the ingest job: for each
table, batch_create_edge with its edge list; building a table's edge list can
raise, which aborts the run before that table's write. -/
def edgeOpsAcc : List (String × List NormRow) → List StoreOp × Option PyErr
  | [] => ([], Option.none)
  | (_, rows) :: rest =>
    match edgeListOf rows with
    | Except.error e => ([], Option.some e)
    | Except.ok ts =>
      let res := edgeOpsAcc rest
      (StoreOp.edgeMerge ts :: res.1, res.2)

/-- Embedding of main.py run_airtable_to_neo4j_ingest_job over an already
fetched source (the list of tables with their raw rows) and a store state: the
rows of every table are split, the store is wiped when nuke is set, the node
loop runs over all tables, then the edge loop runs over all tables.  The
returned trace lists the store writes in the order they are issued; the result
is the final store, or the raised exception when an edge value is not
iterable. -/
def run_airtable_to_neo4j_ingest_job (src : List (String × List RawRow)) (nuke : Bool)
    (s : Store) : List StoreOp × Except PyErr Store :=
  let dfs := src.map (fun p => (p.1, p.2.map split_node_edge))
  let pre := if nuke then [StoreOp.wipe] else []
  let eo := edgeOpsAcc dfs
  let tr := pre ++ nodeOps dfs ++ eo.1
  (tr, match eo.2 with
       | Option.none => Except.ok (applyOps s tr)
       | Option.some e => Except.error e)

/-- Whether a store operation is a node-merge write. -/
def isNodeMergeOp : StoreOp → Bool
  | StoreOp.nodeMerge _ _ => true
  | _ => false

/-- Whether a store operation is an edge-merge write. -/
def isEdgeMergeOp : StoreOp → Bool
  | StoreOp.edgeMerge _ => true
  | _ => false

/-- Claim-side phase-order predicate: from the first edge-merge write on, no
node-merge write occurs. -/
def nodesBeforeEdges : List StoreOp → Bool
  | [] => true
  | op :: rest =>
    if isEdgeMergeOp op then rest.all (fun o => !isNodeMergeOp o)
    else nodesBeforeEdges rest

/-- Claim-side order predicate for claim C3: among the operations that concern
label l, a constraint declaration comes before the first node merge (vacuously
true when neither occurs). -/
def constraintBeforeMergeFor (l : String) : List StoreOp → Bool
  | [] => true
  | StoreOp.nodeMerge lbl _ :: rest =>
    if lbl = l then false else constraintBeforeMergeFor l rest
  | StoreOp.constraintFor lbl _ :: rest =>
    if lbl = l then true else constraintBeforeMergeFor l rest
  | _ :: rest => constraintBeforeMergeFor l rest

/-- Amended order predicate: among the operations that concern label l, the
first node merge comes before any constraint declaration (vacuously true when
neither occurs). -/
def mergeBeforeConstraintFor (l : String) : List StoreOp → Bool
  | [] => true
  | StoreOp.nodeMerge lbl _ :: rest =>
    if lbl = l then true else mergeBeforeConstraintFor l rest
  | StoreOp.constraintFor lbl _ :: rest =>
    if lbl = l then false else mergeBeforeConstraintFor l rest
  | _ :: rest => mergeBeforeConstraintFor l rest

/-- A store operation that is neither a node merge nor a constraint
declaration, hence irrelevant to the per-table sub-sequence order. -/
def neutralOp : StoreOp → Bool
  | StoreOp.nodeMerge _ _ => false
  | StoreOp.constraintFor _ _ => false
  | _ => true

/-- The store with no content. -/
def emptyStore : Store := ⟨[], []⟩

/-- The one-row People table of the spec's idempotence example. -/
def adaRow : RawRow :=
  { id := Option.some "rec00000000000001"
    createdTime := "2022-01-01T00:00:00.000Z"
    fields := [(PyVal.str "Name", PyVal.str "Ada"),
               (PyVal.str "FRIENDS", PyVal.list [PyVal.str "rec00000000000002"])] }

/-- A source with the single People table. -/
def srcPeople : List (String × List RawRow) := [("People", [adaRow])]

/-- The node map the People table produces for Ada. -/
def adaNodeMap : List (PyVal × PyVal) :=
  [(PyVal.str "Name", PyVal.str "Ada"), (aidKey, PyVal.str "rec00000000000001")]

/-- The store after ingesting the People source into an empty store. -/
def storePeople : Store :=
  ⟨[⟨"People", adaNodeMap⟩],
   [⟨PyVal.str "rec00000000000001", PyVal.str "rec00000000000002", "FRIENDS"⟩]⟩

/-- The write trace of one run of the People source. -/
def tracePeople : List StoreOp :=
  [StoreOp.nodeMerge "People" [adaNodeMap],
   StoreOp.constraintFor "People" airtable_id_col,
   StoreOp.edgeMerge [⟨PyVal.str "rec00000000000001", PyVal.str "rec00000000000002", "FRIENDS"⟩]]

theorem pySplitDunder_headD : ∀ l : List Char, (pySplitDunder l).headD [] = takeBeforeDunder l
  | [] => rfl
  | [_] => rfl
  | c :: c2 :: rest => by
      by_cases h : c = '_' ∧ c2 = '_'
      · simp [pySplitDunder, takeBeforeDunder, h]
      · have ih := pySplitDunder_headD (c2 :: rest)
        rw [pySplitDunder, takeBeforeDunder, if_neg h, if_neg h]
        cases hsp : pySplitDunder (c2 :: rest) with
        | nil => rw [hsp] at ih; simpa using ih.symm
        | cons piece pieces =>
            rw [hsp] at ih
            simp only [List.headD] at ih ⊢
            rw [ih]

theorem dictInsert_keys {α β : Type} [DecidableEq α] (d : List (α × β)) (k : α) (v : β)
    (k' : α) : k' ∈ (dictInsert d k v).map Prod.fst ↔ k' ∈ d.map Prod.fst ∨ k' = k := by
  unfold dictInsert
  by_cases h : d.any (fun p => p.1 = k) = true
  · rw [if_pos h]
    simp only [List.map_map, List.mem_map, Function.comp]
    constructor
    · rintro ⟨p, hp, hEq⟩
      by_cases hk : p.1 = k
      · right; rw [if_pos hk] at hEq; exact hEq.symm
      · left; rw [if_neg hk] at hEq
        exact ⟨p, hp, hEq⟩
    · rintro (⟨p, hp, hfst⟩ | hkk)
      · refine ⟨p, hp, ?_⟩
        by_cases hk : p.1 = k
        · rw [if_pos hk]; rw [← hfst, hk]
        · rw [if_neg hk]; exact hfst
      · rcases List.any_eq_true.mp h with ⟨p, hp, hpk⟩
        have hpk' : p.1 = k := by simpa using hpk
        exact ⟨p, hp, by rw [if_pos hpk', hkk]⟩
  · rw [if_neg h]
    simp only [List.map_append, List.mem_append, List.map_cons, List.map_nil,
      List.mem_singleton]

theorem dictLookup_map_update {α β : Type} [DecidableEq α] :
    ∀ (d : List (α × β)) (k : α) (v : β), d.any (fun p => p.1 = k) = true →
      dictLookup (d.map (fun p => if p.1 = k then (k, v) else p)) k = Option.some v
  | [], _, _, h => by simp at h
  | p :: rest, k, v, h => by
      by_cases hp : p.1 = k
      · simp [dictLookup, hp]
      · have h' : rest.any (fun q => q.1 = k) = true := by
          simpa [List.any_cons, hp] using h
        simp only [List.map_cons, if_neg hp, dictLookup, if_neg hp]
        exact dictLookup_map_update rest k v h'

theorem dictLookup_append_self {α β : Type} [DecidableEq α] :
    ∀ (d : List (α × β)) (k : α) (v : β), d.any (fun p => p.1 = k) = false →
      dictLookup (d ++ [(k, v)]) k = Option.some v
  | [], k, v, _ => by simp [dictLookup]
  | p :: rest, k, v, h => by
      rw [List.any_cons] at h
      have hp : ¬(p.1 = k) := by
        intro hk
        simp [hk] at h
      have h' : rest.any (fun q => q.1 = k) = false := by
        rcases Bool.or_eq_false_iff.mp h with ⟨_, h2⟩
        exact h2
      simp only [List.cons_append, dictLookup, if_neg hp]
      exact dictLookup_append_self rest k v h'

theorem dictLookup_dictInsert_self {α β : Type} [DecidableEq α] (d : List (α × β)) (k : α)
    (v : β) : dictLookup (dictInsert d k v) k = Option.some v := by
  unfold dictInsert
  by_cases h : d.any (fun p => p.1 = k) = true
  · rw [if_pos h]; exact dictLookup_map_update d k v h
  · rw [if_neg h]; exact dictLookup_append_self d k v (Bool.not_eq_true _ |>.mp h)

theorem foldl_dictInsert_keys {α β : Type} [DecidableEq α] :
    ∀ (ps : List (α × β)) (d : List (α × β)) (k' : α),
      k' ∈ (ps.foldl (fun m p => dictInsert m p.1 p.2) d).map Prod.fst ↔
        k' ∈ d.map Prod.fst ∨ k' ∈ ps.map Prod.fst
  | [], d, k' => by simp
  | p :: ps, d, k' => by
      simp only [List.foldl_cons, foldl_dictInsert_keys ps _ k', dictInsert_keys,
        List.map_cons, List.mem_cons]
      tauto

theorem dictOfPairs_keys {α β : Type} [DecidableEq α] (ps : List (α × β)) (k' : α) :
    k' ∈ (dictOfPairs ps).map Prod.fst ↔ k' ∈ ps.map Prod.fst := by
  unfold dictOfPairs
  rw [foldl_dictInsert_keys]
  simp

theorem prop_col_eq_not_edge (k : PyVal) (h : keep_col_cond k = true) :
    prop_col_cond k = !edge_col_cond k := by
  cases k with
  | str s => rfl
  | int n => simp [keep_col_cond] at h
  | list xs => simp [keep_col_cond] at h
  | none => simp [keep_col_cond] at h

/-- C10: the dedicated identifier key added to each node's property map never
collides with a user property: the key starts with the underscore sentinel, so
every source column with that name was classified Ignored and dropped before
props was built; consequently, in every node-merge entry the value stored
under the identifier key is exactly the row's stable identifier. -/
theorem c10_aid_no_collision (row : RawRow) :
    aidKey ∉ (split_node_edge row).props.map Prod.fst ∧
    dictLookup (make_node_list (split_node_edge row)) aidKey = Option.some (idVal row.id) := by
  constructor
  · intro hmem
    simp only [split_node_edge] at hmem
    rw [dictOfPairs_keys] at hmem
    simp only [keptFields, List.mem_map, List.mem_filter] at hmem
    rcases hmem with ⟨p, ⟨⟨_, hkeep⟩, _⟩, hfst⟩
    rw [hfst] at hkeep
    simp [aidKey, keep_col_cond, airtable_id_col, startsWithUnderscore] at hkeep
  · exact dictLookup_dictInsert_self _ _ _

/-- C4: for every raw row, the keys of the produced props map together with
the original source-column names of the produced edges map are exactly the
row's column set minus the Ignored columns, and no kept column contributes to
both props and edges. -/
theorem c4_partition (row : RawRow) (k : PyVal) :
    ((k ∈ (split_node_edge row).props.map Prod.fst ∨ k ∈ edgeSourceCols row) ↔
      (k ∈ row.fields.map Prod.fst ∧ keep_col_cond k = true)) ∧
    ¬(k ∈ (split_node_edge row).props.map Prod.fst ∧ k ∈ edgeSourceCols row) := by
  have hprops : k ∈ (split_node_edge row).props.map Prod.fst ↔
      ∃ p ∈ row.fields, keep_col_cond p.1 = true ∧ prop_col_cond p.1 = true ∧ p.1 = k := by
    simp only [split_node_edge]
    rw [dictOfPairs_keys]
    simp only [keptFields, List.mem_map, List.mem_filter]
    constructor
    · rintro ⟨p, ⟨⟨hmem, hkeep⟩, hprop⟩, hfst⟩
      exact ⟨p, hmem, hkeep, hprop, hfst⟩
    · rintro ⟨p, hmem, hkeep, hprop, hfst⟩
      exact ⟨p, ⟨⟨hmem, hkeep⟩, hprop⟩, hfst⟩
  have hedges : k ∈ edgeSourceCols row ↔
      ∃ p ∈ row.fields, keep_col_cond p.1 = true ∧ edge_col_cond p.1 = true ∧ p.1 = k := by
    rw [edgeSourceCols]
    simp only [List.mem_map, List.mem_filter, keptFields]
    constructor
    · rintro ⟨p, ⟨⟨hmem, hkeep⟩, hedge⟩, hfst⟩
      exact ⟨p, hmem, hkeep, hedge, hfst⟩
    · rintro ⟨p, hmem, hkeep, hedge, hfst⟩
      exact ⟨p, ⟨⟨hmem, hkeep⟩, hedge⟩, hfst⟩
  constructor
  · constructor
    · rintro (hP | hE)
      · rcases hprops.mp hP with ⟨p, hmem, hkeep, _, hfst⟩
        exact ⟨List.mem_map.mpr ⟨p, hmem, hfst⟩, hfst ▸ hkeep⟩
      · rcases hedges.mp hE with ⟨p, hmem, hkeep, _, hfst⟩
        exact ⟨List.mem_map.mpr ⟨p, hmem, hfst⟩, hfst ▸ hkeep⟩
    · rintro ⟨hmem, hkeep⟩
      rcases List.mem_map.mp hmem with ⟨p, hp, hfst⟩
      cases hedge : edge_col_cond k with
      | true => exact Or.inr (hedges.mpr ⟨p, hp, hfst ▸ hkeep, hfst ▸ hedge, hfst⟩)
      | false =>
          have hpropk : prop_col_cond k = true := by
            rw [prop_col_eq_not_edge k hkeep, hedge]; rfl
          exact Or.inl (hprops.mpr ⟨p, hp, hfst ▸ hkeep, hfst ▸ hpropk, hfst⟩)
  · rintro ⟨hP, hE⟩
    rcases hprops.mp hP with ⟨p, _, hkeepp, hpropp, hfstp⟩
    rcases hedges.mp hE with ⟨q, _, _, hedgeq, hfstq⟩
    have hkeepk : keep_col_cond k = true := hfstp ▸ hkeepp
    have hpropk : prop_col_cond k = true := hfstp ▸ hpropp
    have hedgek : edge_col_cond k = true := hfstq ▸ hedgeq
    rw [prop_col_eq_not_edge k hkeepk, hedgek] at hpropk
    exact Bool.noConfusion hpropk

/-- C5 counterexample: the code classifies the column name A_B as Edge, since
Python str.isupper ignores the uncased underscore, while the rule of claim C5
(every character upper case) classifies it as Property; the two disagree, so
the classification is not the function the claim describes. -/
theorem c5_counterexample :
    classify (PyVal.str "A_B") ≠ classifySpecC5 (PyVal.str "A_B") ∧
    classify (PyVal.str "A_B") = ColumnKind.edge ∧
    classifySpecC5 (PyVal.str "A_B") = ColumnKind.property := by decide

/-- C5 amended: column classification is a pure total function with the
decision order of claim C5, except that the Edge test is Python str.isupper —
the name has at least one cased character and all its cased characters are
upper case — rather than every character being upper case. -/
theorem c5_classify_amended (k : PyVal) : classify k = classifySpecC5Amended k := by
  cases k with
  | str s =>
      cases h : startsWithUnderscore s with
      | true => simp [classify, classifySpecC5Amended, keep_col_cond, h]
      | false =>
          cases hu : pyIsUpper s with
          | true =>
              have hu' := hu
              simp only [pyIsUpper] at hu'
              simp [classify, classifySpecC5Amended, keep_col_cond, edge_col_cond, h, hu, hu']
          | false =>
              have hu' := hu
              simp only [pyIsUpper] at hu'
              simp [classify, classifySpecC5Amended, keep_col_cond, edge_col_cond, h, hu, hu']
  | int n => rfl
  | list xs => rfl
  | none => rfl

/-- C6: for every column name, the edge label format_edge_col derives is the
prefix of the name strictly before the first occurrence of the two-character
separator, everything at and after the separator discarded; in particular the
column FRIENDS__weight yields the label FRIENDS. -/
theorem c6_edge_label_truncation :
    (∀ col : String, format_edge_col col = String.mk (takeBeforeDunder col.data)) ∧
    format_edge_col "FRIENDS__weight" = "FRIENDS" := by
  constructor
  · intro col
    rw [format_edge_col, pySplitDunder_headD]
  · decide

/-- C7 counterexample: a scalar edge-column value is not treated as a
single-element sequence of targets — iterating the integer 5 raises TypeError,
so flattening the record's edges fails instead of producing one edge tuple. -/
theorem c7_counterexample :
    rowEdgeTuples (Option.some "rec00000000000001") [("FRIENDS", PyVal.int 5)] =
      Except.error PyErr.typeError := rfl

/-- C7 amended: when flattening a record's edges into edge tuples, a
list-valued edge column contributes one tuple per element, an empty list or an
absent edge column yields zero edge tuples for that label without raising, and
a scalar non-iterable edge-column value raises TypeError. -/
theorem c7_flatten_amended :
    (∀ (rowId : Option String) (k : String) (rest : List (String × PyVal)),
        rowEdgeTuples rowId ((k, PyVal.list []) :: rest) = rowEdgeTuples rowId rest) ∧
    (∀ rowId : Option String, rowEdgeTuples rowId [] = Except.ok []) ∧
    (∀ (rowId : Option String) (k : String) (xs : List PyVal) (rest : List (String × PyVal))
        (ts : List EdgeTuple), rowEdgeTuples rowId rest = Except.ok ts →
        rowEdgeTuples rowId ((k, PyVal.list xs) :: rest) =
          Except.ok (xs.map (fun t => ⟨idVal rowId, t, k⟩) ++ ts)) ∧
    (∀ (rowId : Option String) (k : String) (n : Int) (rest : List (String × PyVal)),
        rowEdgeTuples rowId ((k, PyVal.int n) :: rest) = Except.error PyErr.typeError) := by
  refine ⟨?_, ?_, ?_, ?_⟩
  · intro rowId k rest
    cases h : rowEdgeTuples rowId rest <;> simp [rowEdgeTuples, pyIter, h]
  · intro rowId
    rfl
  · intro rowId k xs rest ts h
    simp [rowEdgeTuples, pyIter, h]
  · intro rowId k n rest
    rfl

/-- C8 counterexample: a raw row lacking a stable identifier is split without
any error and a normalized record is produced for it, contrary to the claimed
fatal MalformedRecordError (no such check or error exists in the code). -/
theorem c8_counterexample :
    split_node_edge ⟨Option.none, "2022-01-01T00:00:00.000Z",
        [(PyVal.str "Name", PyVal.str "Ada")]⟩ =
      ⟨Option.none, [(PyVal.str "Name", PyVal.str "Ada")], [], Option.none⟩ := rfl

/-- C8 amended: splitting never fails on a row lacking a stable identifier —
split_node_edge is total, produces a normalized record for every raw row, and
propagates the possibly absent identifier unchanged; no MalformedRecordError
is raised anywhere. -/
theorem c8_split_total_amended (row : RawRow) : (split_node_edge row).id = row.id := rfl

/-- C9: a table containing zero rows produces a no-op node-merge plan with an
empty node list and contributes zero edge tuples, and processing it raises no
error and leaves any store unchanged. -/
theorem c9_empty_table (name : String) (s : Store) :
    nodeListOf [] = [] ∧ edgeListOf [] = Except.ok [] ∧
    run_airtable_to_neo4j_ingest_job [(name, [])] false s =
      ([StoreOp.nodeMerge name [], StoreOp.constraintFor name airtable_id_col,
        StoreOp.edgeMerge []], Except.ok s) :=
  ⟨rfl, rfl, rfl⟩

/-- C3 counterexample: on the one-table People source the node-upsert phase
issues the node-merge write first and the constraint declaration second, so
the claimed sub-order (declare constraint, then merge nodes) fails. -/
theorem c3_counterexample :
    constraintBeforeMergeFor "People"
      (run_airtable_to_neo4j_ingest_job srcPeople false emptyStore).1 = false := rfl

theorem nodeOps_no_edge : ∀ (dfs : List (String × List NormRow)), ∀ op ∈ nodeOps dfs,
    isEdgeMergeOp op = false
  | [], op, h => by simp [nodeOps] at h
  | (t, rows) :: rest, op, h => by
      simp only [nodeOps, List.mem_cons] at h
      rcases h with rfl | rfl | h
      · rfl
      · rfl
      · exact nodeOps_no_edge rest op h

theorem edgeOpsAcc_all_edge : ∀ (dfs : List (String × List NormRow)), ∀ op ∈ (edgeOpsAcc dfs).1,
    isEdgeMergeOp op = true
  | [], op, h => by simp [edgeOpsAcc] at h
  | (t, rows) :: rest, op, h => by
      cases hE : edgeListOf rows with
      | error e => simp [edgeOpsAcc, hE] at h
      | ok ts =>
          simp only [edgeOpsAcc, hE, List.mem_cons] at h
          rcases h with rfl | h
          · rfl
          · exact edgeOpsAcc_all_edge rest op h

theorem all_not_nodeMerge (B : List StoreOp) (hB : ∀ op ∈ B, isNodeMergeOp op = false) :
    B.all (fun o => !isNodeMergeOp o) = true := by
  rw [List.all_eq_true]
  intro o ho
  rw [hB o ho]
  rfl

theorem nodesBeforeEdges_of_no_node : ∀ B : List StoreOp,
    (∀ op ∈ B, isNodeMergeOp op = false) → nodesBeforeEdges B = true
  | [], _ => rfl
  | b :: B, hB => by
      by_cases hb : isEdgeMergeOp b = true
      · simp only [nodesBeforeEdges, hb, if_true]
        exact all_not_nodeMerge B (fun o ho => hB o (List.mem_cons_of_mem _ ho))
      · simp only [nodesBeforeEdges, hb, if_false]
        exact nodesBeforeEdges_of_no_node B (fun o ho => hB o (List.mem_cons_of_mem _ ho))

theorem nodesBeforeEdges_append : ∀ (A B : List StoreOp),
    (∀ op ∈ A, isEdgeMergeOp op = false) → (∀ op ∈ B, isNodeMergeOp op = false) →
    nodesBeforeEdges (A ++ B) = true
  | [], B, _, hB => nodesBeforeEdges_of_no_node B hB
  | a :: A, B, hA, hB => by
      have ha : isEdgeMergeOp a = false := hA a (List.mem_cons_self _ _)
      simp only [List.cons_append, nodesBeforeEdges, ha, if_false]
      exact nodesBeforeEdges_append A B (fun o ho => hA o (List.mem_cons_of_mem _ ho)) hB

/-- C2: in every run of the ingest job, no edge-merge write is issued before
every node-merge write has been issued — from the first edge-merge operation
of the run's write trace onward, no node-merge operation occurs. -/
theorem c2_nodes_before_edges (src : List (String × List RawRow)) (nuke : Bool) (s : Store) :
    nodesBeforeEdges (run_airtable_to_neo4j_ingest_job src nuke s).1 = true := by
  have hrw : (run_airtable_to_neo4j_ingest_job src nuke s).1 =
      ((if nuke then [StoreOp.wipe] else []) ++
        nodeOps (src.map (fun p => (p.1, p.2.map split_node_edge)))) ++
        (edgeOpsAcc (src.map (fun p => (p.1, p.2.map split_node_edge)))).1 := rfl
  rw [hrw]
  apply nodesBeforeEdges_append
  · intro op hop
    rcases List.mem_append.mp hop with h | h
    · cases nuke with
      | true =>
          have : op = StoreOp.wipe := by simpa using h
          rw [this]; rfl
      | false => simp at h
    · exact nodeOps_no_edge _ op h
  · intro op hop
    have hEdge := edgeOpsAcc_all_edge _ op hop
    cases op <;> simp_all [isEdgeMergeOp, isNodeMergeOp]

theorem mbc_neutral : ∀ (l : String) (B : List StoreOp),
    (∀ op ∈ B, neutralOp op = true) → mergeBeforeConstraintFor l B = true
  | _, [], _ => rfl
  | l, op :: B, h => by
      cases op with
      | wipe => exact mbc_neutral l B (fun o ho => h o (List.mem_cons_of_mem _ ho))
      | edgeMerge ts => exact mbc_neutral l B (fun o ho => h o (List.mem_cons_of_mem _ ho))
      | nodeMerge lbl nl =>
          have := h _ (List.mem_cons_self _ _)
          simp [neutralOp] at this
      | constraintFor lbl p =>
          have := h _ (List.mem_cons_self _ _)
          simp [neutralOp] at this

theorem mbc_nodeOps : ∀ (l : String) (dfs : List (String × List NormRow)) (B : List StoreOp),
    (∀ op ∈ B, neutralOp op = true) → mergeBeforeConstraintFor l (nodeOps dfs ++ B) = true
  | l, [], B, hB => by simpa [nodeOps] using mbc_neutral l B hB
  | l, (t, rows) :: rest, B, hB => by
      by_cases ht : t = l
      · simp [nodeOps, mergeBeforeConstraintFor, ht]
      · simp only [nodeOps, List.cons_append, mergeBeforeConstraintFor, ht, if_false]
        exact mbc_nodeOps l rest B hB

/-- C3 amended: for every table, the node-upsert phase executes its two store
operations in the order merge the table's nodes first, then declare the
uniqueness constraint on the identifier property — among the trace operations
concerning any label, the first node merge precedes any constraint
declaration. -/
theorem c3_merge_then_constraint (src : List (String × List RawRow)) (nuke : Bool) (s : Store)
    (l : String) :
    mergeBeforeConstraintFor l (run_airtable_to_neo4j_ingest_job src nuke s).1 = true := by
  have hneutral : ∀ op ∈ (edgeOpsAcc (src.map (fun p => (p.1, p.2.map split_node_edge)))).1,
      neutralOp op = true := by
    intro op hop
    have hEdge := edgeOpsAcc_all_edge _ op hop
    cases op <;> simp_all [isEdgeMergeOp, neutralOp]
  have hrw : (run_airtable_to_neo4j_ingest_job src nuke s).1 =
      (if nuke then [StoreOp.wipe] else []) ++
        (nodeOps (src.map (fun p => (p.1, p.2.map split_node_edge))) ++
          (edgeOpsAcc (src.map (fun p => (p.1, p.2.map split_node_edge)))).1) := by
    show (if nuke then [StoreOp.wipe] else []) ++
        nodeOps (src.map (fun p => (p.1, p.2.map split_node_edge))) ++
        (edgeOpsAcc (src.map (fun p => (p.1, p.2.map split_node_edge)))).1 = _
    rw [List.append_assoc]
  rw [hrw]
  cases nuke with
  | true => exact mbc_nodeOps l _ _ hneutral
  | false => exact mbc_nodeOps l _ _ hneutral

theorem mergeNode_self_present (ns : List StoreNode) (l : String) (p : List (PyVal × PyVal)) :
    hasNodeKey (mergeNode ns l p) l (nodeAid p) = true := by
  unfold mergeNode hasNodeKey
  by_cases h : ns.any (nodeKeyEq l (nodeAid p)) = true
  · rw [if_pos h]
    rcases List.any_eq_true.mp h with ⟨n, hn, hkey⟩
    apply List.any_eq_true.mpr
    refine ⟨⟨l, p⟩, List.mem_map.mpr ⟨n, hn, by rw [if_pos hkey]⟩, ?_⟩
    simp [nodeKeyEq]
  · rw [if_neg h]
    apply List.any_eq_true.mpr
    refine ⟨⟨l, p⟩, List.mem_append.mpr (Or.inr (List.mem_singleton.mpr rfl)), ?_⟩
    simp [nodeKeyEq]

theorem mergeNode_mono (ns : List StoreNode) (l' : String) (a : Option PyVal) (l : String)
    (p : List (PyVal × PyVal)) (h : hasNodeKey ns l' a = true) :
    hasNodeKey (mergeNode ns l p) l' a = true := by
  unfold hasNodeKey at *
  unfold mergeNode
  rcases List.any_eq_true.mp h with ⟨n, hn, hkey⟩
  by_cases hc : ns.any (nodeKeyEq l (nodeAid p)) = true
  · rw [if_pos hc]
    apply List.any_eq_true.mpr
    by_cases hrep : nodeKeyEq l (nodeAid p) n = true
    · have h1 : n.label = l ∧ nodeAid n.props = nodeAid p := of_decide_eq_true hrep
      have h2 : n.label = l' ∧ nodeAid n.props = a := of_decide_eq_true hkey
      refine ⟨⟨l, p⟩, List.mem_map.mpr ⟨n, hn, by rw [if_pos hrep]⟩, ?_⟩
      apply decide_eq_true
      exact ⟨by rw [← h1.1, h2.1], by rw [← h1.2, h2.2]⟩
    · refine ⟨n, List.mem_map.mpr ⟨n, hn, by rw [if_neg hrep]⟩, hkey⟩
  · rw [if_neg hc]
    exact List.any_eq_true.mpr ⟨n, List.mem_append.mpr (Or.inl hn), hkey⟩

theorem mergeNode_length (ns : List StoreNode) (l : String) (p : List (PyVal × PyVal))
    (h : hasNodeKey ns l (nodeAid p) = true) : (mergeNode ns l p).length = ns.length := by
  unfold hasNodeKey at h
  unfold mergeNode
  rw [if_pos h]
  exact List.length_map _ _

theorem foldMerge_mono : ∀ (ps : List (List (PyVal × PyVal))) (ns : List StoreNode)
    (l l' : String) (a : Option PyVal), hasNodeKey ns l' a = true →
    hasNodeKey (ps.foldl (fun m q => mergeNode m l q) ns) l' a = true
  | [], _, _, _, _, h => h
  | p :: ps, ns, l, l', a, h =>
      foldMerge_mono ps (mergeNode ns l p) l l' a (mergeNode_mono ns l' a l p h)

theorem foldMerge_present : ∀ (ps : List (List (PyVal × PyVal))) (ns : List StoreNode)
    (l : String) (p : List (PyVal × PyVal)), p ∈ ps →
    hasNodeKey (ps.foldl (fun m q => mergeNode m l q) ns) l (nodeAid p) = true
  | [], _, _, _, h => absurd h (List.not_mem_nil _)
  | p0 :: ps, ns, l, p, h => by
      rcases List.mem_cons.mp h with rfl | h'
      · exact foldMerge_mono ps (mergeNode ns l p) l l (nodeAid p)
          (mergeNode_self_present ns l p)
      · exact foldMerge_present ps (mergeNode ns l p0) l p h'

theorem foldMerge_length : ∀ (ps : List (List (PyVal × PyVal))) (ns : List StoreNode)
    (l : String), (∀ p ∈ ps, hasNodeKey ns l (nodeAid p) = true) →
    (ps.foldl (fun m q => mergeNode m l q) ns).length = ns.length
  | [], _, _, _ => rfl
  | p :: ps, ns, l, h => by
      have h0 := h p (List.mem_cons_self _ _)
      have hrest : ∀ q ∈ ps, hasNodeKey (mergeNode ns l p) l (nodeAid q) = true :=
        fun q hq => mergeNode_mono ns l (nodeAid q) l p (h q (List.mem_cons_of_mem _ hq))
      rw [List.foldl_cons, foldMerge_length ps (mergeNode ns l p) l hrest,
        mergeNode_length ns l p h0]

theorem applyOp_node_mono (s : Store) (op : StoreOp) (hop : op ≠ StoreOp.wipe) (l : String)
    (a : Option PyVal) (h : hasNodeKey s.nodes l a = true) :
    hasNodeKey (applyOp s op).nodes l a = true := by
  cases op with
  | wipe => exact absurd rfl hop
  | nodeMerge lbl nlist => exact foldMerge_mono nlist s.nodes lbl l a h
  | constraintFor lbl pr => exact h
  | edgeMerge ts => exact h

theorem applyOps_node_mono : ∀ (ops : List StoreOp) (s : Store) (l : String) (a : Option PyVal),
    (∀ op ∈ ops, op ≠ StoreOp.wipe) → hasNodeKey s.nodes l a = true →
    hasNodeKey (applyOps s ops).nodes l a = true
  | [], _, _, _, _, h => h
  | op :: ops, s, l, a, hw, h =>
      applyOps_node_mono ops (applyOp s op) l a (fun o ho => hw o (List.mem_cons_of_mem _ ho))
        (applyOp_node_mono s op (hw op (List.mem_cons_self _ _)) l a h)

theorem applyOps_keys_present : ∀ (ops : List StoreOp) (s : Store),
    (∀ op ∈ ops, op ≠ StoreOp.wipe) → ∀ (l : String) (nlist : List (List (PyVal × PyVal))),
    StoreOp.nodeMerge l nlist ∈ ops → ∀ p ∈ nlist,
    hasNodeKey (applyOps s ops).nodes l (nodeAid p) = true
  | [], _, _, _, _, hmem, _, _ => absurd hmem (List.not_mem_nil _)
  | op :: ops, s, hw, l, nlist, hmem, p, hp => by
      rcases List.mem_cons.mp hmem with rfl | hmem'
      · exact applyOps_node_mono ops (applyOp s (StoreOp.nodeMerge l nlist)) l (nodeAid p)
          (fun o ho => hw o (List.mem_cons_of_mem _ ho))
          (foldMerge_present nlist s.nodes l p hp)
      · exact applyOps_keys_present ops (applyOp s op)
          (fun o ho => hw o (List.mem_cons_of_mem _ ho)) l nlist hmem' p hp

theorem applyOps_replay_nodes_len : ∀ (ops : List StoreOp) (s : Store),
    (∀ op ∈ ops, op ≠ StoreOp.wipe) →
    (∀ (l : String) (nlist : List (List (PyVal × PyVal))), StoreOp.nodeMerge l nlist ∈ ops →
      ∀ p ∈ nlist, hasNodeKey s.nodes l (nodeAid p) = true) →
    (applyOps s ops).nodes.length = s.nodes.length
  | [], _, _, _ => rfl
  | op :: ops, s, hw, hp => by
      have hwrest : ∀ o ∈ ops, o ≠ StoreOp.wipe := fun o ho => hw o (List.mem_cons_of_mem _ ho)
      have hop : op ≠ StoreOp.wipe := hw op (List.mem_cons_self _ _)
      have hlen : (applyOp s op).nodes.length = s.nodes.length := by
        cases op with
        | wipe => exact absurd rfl hop
        | nodeMerge lbl nlist =>
            exact foldMerge_length nlist s.nodes lbl (hp lbl nlist (List.mem_cons_self _ _))
        | constraintFor _ _ => rfl
        | edgeMerge _ => rfl
      have hprest : ∀ (l : String) (nlist : List (List (PyVal × PyVal))),
          StoreOp.nodeMerge l nlist ∈ ops → ∀ p ∈ nlist,
          hasNodeKey (applyOp s op).nodes l (nodeAid p) = true :=
        fun l nlist hm p hpp =>
          applyOp_node_mono s op hop l (nodeAid p) (hp l nlist (List.mem_cons_of_mem _ hm) p hpp)
      rw [show applyOps s (op :: ops) = applyOps (applyOp s op) ops from rfl,
        applyOps_replay_nodes_len ops (applyOp s op) hwrest hprest, hlen]

theorem mergeEdge_mono (es : List EdgeTuple) (t' t : EdgeTuple) (h : t' ∈ es) :
    t' ∈ mergeEdge es t := by
  unfold mergeEdge
  by_cases hc : t ∈ es
  · rw [if_pos hc]; exact h
  · rw [if_neg hc]; exact List.mem_append.mpr (Or.inl h)

theorem mergeEdge_self (es : List EdgeTuple) (t : EdgeTuple) : t ∈ mergeEdge es t := by
  unfold mergeEdge
  by_cases hc : t ∈ es
  · rw [if_pos hc]; exact hc
  · rw [if_neg hc]; exact List.mem_append.mpr (Or.inr (List.mem_singleton.mpr rfl))

theorem foldMergeEdge_fix : ∀ (ts es : List EdgeTuple), (∀ t ∈ ts, t ∈ es) →
    ts.foldl mergeEdge es = es
  | [], _, _ => rfl
  | t :: ts, es, h => by
      have h0 : mergeEdge es t = es := if_pos (h t (List.mem_cons_self _ _))
      rw [List.foldl_cons, h0]
      exact foldMergeEdge_fix ts es (fun u hu => h u (List.mem_cons_of_mem _ hu))

theorem foldMergeEdge_mono : ∀ (ts es : List EdgeTuple) (t' : EdgeTuple), t' ∈ es →
    t' ∈ ts.foldl mergeEdge es
  | [], _, _, h => h
  | t :: ts, es, t', h => foldMergeEdge_mono ts (mergeEdge es t) t' (mergeEdge_mono es t' t h)

theorem foldMergeEdge_present : ∀ (ts es : List EdgeTuple) (t : EdgeTuple), t ∈ ts →
    t ∈ ts.foldl mergeEdge es
  | [], _, _, h => absurd h (List.not_mem_nil _)
  | t0 :: ts, es, t, h => by
      rcases List.mem_cons.mp h with rfl | h'
      · exact foldMergeEdge_mono ts (mergeEdge es t) t (mergeEdge_self es t)
      · exact foldMergeEdge_present ts (mergeEdge es t0) t h'

theorem applyOp_edge_mono (s : Store) (op : StoreOp) (hop : op ≠ StoreOp.wipe) (t : EdgeTuple)
    (h : t ∈ s.edges) : t ∈ (applyOp s op).edges := by
  cases op with
  | wipe => exact absurd rfl hop
  | nodeMerge lbl nlist => exact h
  | constraintFor lbl pr => exact h
  | edgeMerge ts => exact foldMergeEdge_mono ts s.edges t h

theorem applyOps_edge_mono : ∀ (ops : List StoreOp) (s : Store) (t : EdgeTuple),
    (∀ op ∈ ops, op ≠ StoreOp.wipe) → t ∈ s.edges → t ∈ (applyOps s ops).edges
  | [], _, _, _, h => h
  | op :: ops, s, t, hw, h =>
      applyOps_edge_mono ops (applyOp s op) t (fun o ho => hw o (List.mem_cons_of_mem _ ho))
        (applyOp_edge_mono s op (hw op (List.mem_cons_self _ _)) t h)

theorem applyOps_edges_present : ∀ (ops : List StoreOp) (s : Store),
    (∀ op ∈ ops, op ≠ StoreOp.wipe) → ∀ ts : List EdgeTuple, StoreOp.edgeMerge ts ∈ ops →
    ∀ t ∈ ts, t ∈ (applyOps s ops).edges
  | [], _, _, _, hmem, _, _ => absurd hmem (List.not_mem_nil _)
  | op :: ops, s, hw, ts, hmem, t, ht => by
      rcases List.mem_cons.mp hmem with rfl | hmem'
      · exact applyOps_edge_mono ops (applyOp s (StoreOp.edgeMerge ts)) t
          (fun o ho => hw o (List.mem_cons_of_mem _ ho))
          (foldMergeEdge_present ts s.edges t ht)
      · exact applyOps_edges_present ops (applyOp s op)
          (fun o ho => hw o (List.mem_cons_of_mem _ ho)) ts hmem' t ht

theorem applyOps_replay_edges : ∀ (ops : List StoreOp) (s : Store),
    (∀ op ∈ ops, op ≠ StoreOp.wipe) →
    (∀ ts : List EdgeTuple, StoreOp.edgeMerge ts ∈ ops → ∀ t ∈ ts, t ∈ s.edges) →
    (applyOps s ops).edges = s.edges
  | [], _, _, _ => rfl
  | op :: ops, s, hw, hp => by
      have hwrest : ∀ o ∈ ops, o ≠ StoreOp.wipe := fun o ho => hw o (List.mem_cons_of_mem _ ho)
      have hop : op ≠ StoreOp.wipe := hw op (List.mem_cons_self _ _)
      have hEdges : (applyOp s op).edges = s.edges := by
        cases op with
        | wipe => exact absurd rfl hop
        | nodeMerge lbl nlist => rfl
        | constraintFor _ _ => rfl
        | edgeMerge ts => exact foldMergeEdge_fix ts s.edges (hp ts (List.mem_cons_self _ _))
      have hprest : ∀ ts : List EdgeTuple, StoreOp.edgeMerge ts ∈ ops → ∀ t ∈ ts,
          t ∈ (applyOp s op).edges := by
        intro ts hm t ht
        rw [hEdges]
        exact hp ts (List.mem_cons_of_mem _ hm) t ht
      rw [show applyOps s (op :: ops) = applyOps (applyOp s op) ops from rfl,
        applyOps_replay_edges ops (applyOp s op) hwrest hprest, hEdges]

theorem nodeOps_noWipe : ∀ (dfs : List (String × List NormRow)), ∀ op ∈ nodeOps dfs,
    op ≠ StoreOp.wipe
  | [], op, h => absurd h (by simp [nodeOps])
  | (t, rows) :: rest, op, h => by
      simp only [nodeOps, List.mem_cons] at h
      rcases h with rfl | rfl | h
      · exact fun hh => StoreOp.noConfusion hh
      · exact fun hh => StoreOp.noConfusion hh
      · exact nodeOps_noWipe rest op h

theorem edgeOpsAcc_noWipe (dfs : List (String × List NormRow)) :
    ∀ op ∈ (edgeOpsAcc dfs).1, op ≠ StoreOp.wipe := by
  intro op hop
  have hEdge := edgeOpsAcc_all_edge dfs op hop
  cases op <;> simp_all [isEdgeMergeOp]

/-- C1: running the full ingest job twice with nuke off against an unchanged
source and store yields exactly the same node and edge counts as running it
once — node writes merge on the identifier property under the table label and
edge writes merge on the source/target/label tuple, so the second run finds
every key already present and duplicates nothing. -/
theorem c1_idempotent_reingest (src : List (String × List RawRow)) (s s1 s2 : Store)
    (tr1 tr2 : List StoreOp)
    (h1 : run_airtable_to_neo4j_ingest_job src false s = (tr1, Except.ok s1))
    (h2 : run_airtable_to_neo4j_ingest_job src false s1 = (tr2, Except.ok s2)) :
    s2.nodes.length = s1.nodes.length ∧ s2.edges.length = s1.edges.length := by
  have hfst1 := congrArg Prod.fst h1
  have hsnd1 := congrArg Prod.snd h1
  have hfst2 := congrArg Prod.fst h2
  have hsnd2 := congrArg Prod.snd h2
  simp only [run_airtable_to_neo4j_ingest_job] at hfst1 hsnd1 hfst2 hsnd2
  cases heo : (edgeOpsAcc (src.map (fun p => (p.1, p.2.map split_node_edge)))).2 with
  | some e =>
      rw [heo] at hsnd1
      simp at hsnd1
  | none =>
      rw [heo] at hsnd1 hsnd2
      simp only [Except.ok.injEq] at hsnd1 hsnd2
      have hw : ∀ op ∈ (if false then [StoreOp.wipe] else []) ++
          nodeOps (src.map (fun p => (p.1, p.2.map split_node_edge))) ++
          (edgeOpsAcc (src.map (fun p => (p.1, p.2.map split_node_edge)))).1,
          op ≠ StoreOp.wipe := by
        intro op hop
        rcases List.mem_append.mp hop with hop' | hop'
        · rcases List.mem_append.mp hop' with hop'' | hop''
          · simp at hop''
          · exact nodeOps_noWipe _ op hop''
        · exact edgeOpsAcc_noWipe _ op hop'
      refine ⟨?_, ?_⟩
      · rw [← hsnd2, ← hsnd1]
        exact applyOps_replay_nodes_len _ _ hw
          (fun l nlist hm p hp => applyOps_keys_present _ s hw l nlist hm p hp)
      · rw [← hsnd2, ← hsnd1]
        have := applyOps_replay_edges _ (applyOps s
          ((if false then [StoreOp.wipe] else []) ++
            nodeOps (src.map (fun p => (p.1, p.2.map split_node_edge))) ++
            (edgeOpsAcc (src.map (fun p => (p.1, p.2.map split_node_edge)))).1)) hw
          (fun ts hm t ht => applyOps_edges_present _ s hw ts hm t ht)
        rw [this]

/-- C1 witness: the spec's People example run twice from the empty store. -/
theorem c1_idempotent_reingest_witness :
    storePeople.nodes.length = storePeople.nodes.length ∧
    storePeople.edges.length = storePeople.edges.length :=
  c1_idempotent_reingest srcPeople emptyStore storePeople storePeople tracePeople tracePeople
    rfl rfl

end Air2Neo
